import Mathlib

/-!
Shallow embedding of the speaker-verification core of the voice-unlock
repository: `src/voice_vault_server/ml_utils.py` (VAD, feature extraction,
cosine distance, speaker prediction) and `src/voice_vault_server/storage.py`
(voiceprint recomputation).

Waveforms and feature vectors are `List ℝ` (numpy 1-D arrays of floats,
modelled in exact real arithmetic).  The external librosa routines
(`librosa.effects.trim`, `librosa.effects.split`, `librosa.feature.mfcc`)
are oracle parameters of the embedding: the repository's own code is the
glue around them, which is translated faithfully.  Python dicts are
association lists in insertion order.
-/

namespace VoiceVault

/-- `SAMPLE_RATE` from `config.py`. -/
def SAMPLE_RATE : ℕ := 16000

/-- `N_MFCC` from `config.py`. -/
def N_MFCC : ℕ := 13

/-- The `1e-10` epsilon used by every norm check in `ml_utils.py`. -/
noncomputable def eps : ℝ := 1 / 10 ^ 10

/-- `np.dot` on 1-D arrays: sum of pointwise products. -/
def dot (a b : List ℝ) : ℝ := (List.zipWith (fun x y => x * y) a b).sum

/-- Squared Euclidean norm, `dot v v`. -/
def normSq (v : List ℝ) : ℝ := dot v v

/-- `np.linalg.norm` on a 1-D array: the Euclidean (L2) norm. -/
noncomputable def l2norm (v : List ℝ) : ℝ := Real.sqrt (normSq v)

/-- The re-normalization pattern of `ml_utils.py`
(`if norm > 1e-10: v = v / norm`), used at lines 106-108 (extractor),
152-154 (query) and 163-167 (stored voiceprint). -/
noncomputable def normalizeIf (v : List ℝ) : List ℝ :=
  if eps < l2norm v then v.map (fun x => x / l2norm v) else v

/-- `_cosine_distance` of `ml_utils.py` (lines 115-130): returns 2.0 when
either norm is exactly zero, else `1 - dot / (norm_a * norm_b)`. -/
noncomputable def _cosine_distance (a b : List ℝ) : ℝ :=
  if l2norm a = 0 ∨ l2norm b = 0 then 2
  else 1 - dot a b / (l2norm a * l2norm b)

/-- Loop body of `predict_speaker` (lines 156-173): skip a voiceprint whose
shape differs from the query's, else re-normalize it, compute the cosine
distance to the (already re-normalized) query and keep the strict minimum. -/
noncomputable def matchStep (q : List ℝ) (acc : Option String × Option ℝ)
    (e : String × List ℝ) : Option String × Option ℝ :=
  if e.2.length ≠ q.length then acc
  else
    match acc.2 with
    | none => (some e.1, some (_cosine_distance q (normalizeIf e.2)))
    | some best =>
        if _cosine_distance q (normalizeIf e.2) < best then
          (some e.1, some (_cosine_distance q (normalizeIf e.2)))
        else acc

/-- `predict_speaker` of `ml_utils.py` (lines 133-178). -/
noncomputable def predict_speaker (voiceprints : List (String × List ℝ))
    (sample_feature : List ℝ) : Option String × Option ℝ :=
  if voiceprints.isEmpty then (none, none)
  else
    match voiceprints.foldl (matchStep (normalizeIf sample_feature))
        (none, none) with
    | (none, _) => (none, none)
    | (some u, d) => (some u, d)

/-- Distance computed by `predict_speaker` for one voiceprint entry. -/
noncomputable def entryDist (q : List ℝ) (e : String × List ℝ) : ℝ :=
  _cosine_distance q (normalizeIf e.2)

/-- The voiceprint entries whose shape matches the query's (the ones
`predict_speaker` does not skip). -/
def matchingVPs (voiceprints : List (String × List ℝ)) (s : List ℝ) :
    List (String × List ℝ) :=
  voiceprints.filter (fun e => e.2.length == s.length)

/-- `_apply_vad` of `ml_utils.py` (lines 22-50).  `trim` stands for
`librosa.effects.trim` (first component of its return value) and `split` for
`librosa.effects.split` (a list of `(start, end)` sample intervals); both are
external collaborators, so they are parameters.  `y_trimmed[start:end]` is
Python slicing, i.e. drop `start` then take `end - start`. -/
def _apply_vad (trim : List ℝ → List ℝ) (split : List ℝ → List (ℕ × ℕ))
    (y : List ℝ) : List ℝ :=
  let y_trimmed := if (trim y).isEmpty then y else trim y
  let intervals := split y_trimmed
  if intervals.isEmpty then y_trimmed
  else
    let voiced := intervals.map (fun iv => (y_trimmed.drop iv.1).take (iv.2 - iv.1))
    let y_voiced := voiced.flatten
    if y_voiced.isEmpty then y_trimmed else y_voiced

/-- The failure modes of `extract_features` (`ml_utils.py` lines 67-95):
`inputError` covers `FileNotFoundError("Audio file not found")` and
`ValueError("Empty audio signal.")`, the spec's `InputError`;
`insufficientAudio` is `ValueError("Less than 0.5s of voiced speech.")`,
the spec's `InsufficientAudioError`; `notEnoughMFCC` is
`ValueError("Not enough MFCC coefficients computed.")`. -/
inductive ExtractError where
  | inputError
  | insufficientAudio
  | notEnoughMFCC
deriving DecidableEq

/-- `np.mean` of a 1-D array. -/
noncomputable def listMean (xs : List ℝ) : ℝ := xs.sum / xs.length

/-- `np.std` of a 1-D array (population standard deviation). -/
noncomputable def listStd (xs : List ℝ) : ℝ :=
  Real.sqrt (listMean (xs.map (fun x => (x - listMean xs) ^ 2)))

/-- The statistics vector of `extract_features` (lines 93-103): drop the
first MFCC row, take per-row means then per-row standard deviations and
concatenate.  The mfcc matrix is a list of coefficient rows. -/
noncomputable def rawFeature (m : List (List ℝ)) : List ℝ :=
  (m.drop 1).map listMean ++ (m.drop 1).map listStd

/-- `extract_features` of `ml_utils.py` (lines 53-110).  `fileExists` stands
for `os.path.exists(filepath)`, `y` for the waveform `librosa.load` returns,
and `mfcc` for `librosa.feature.mfcc` (a matrix of `N_MFCC` coefficient
rows); file system and librosa are external collaborators, so they are
parameters.  Errors are returned instead of raised. -/
noncomputable def extract_features (fileExists : Bool) (y : List ℝ)
    (trim : List ℝ → List ℝ) (split : List ℝ → List (ℕ × ℕ))
    (mfcc : List ℝ → List (List ℝ)) : Except ExtractError (List ℝ) :=
  if !fileExists then .error .inputError
  else if y.isEmpty then .error .inputError
  else if ((_apply_vad trim split y).length : ℝ) < 0.5 * (SAMPLE_RATE : ℝ) then
    .error .insufficientAudio
  else if (mfcc (_apply_vad trim split y)).length < 2 then
    .error .notEnoughMFCC
  else .ok (normalizeIf (rawFeature (mfcc (_apply_vad trim split y))))

/-- The storage state `storage.py` manipulates through its JSON files:
`users.json` (per user, the list of enrollment samples, each with an
optional `features` vector, cf. `s.get("features")`) and
`voiceprints.json`.  Both dicts are association lists in insertion order. -/
structure Storage where
  users : List (String × List (Option (List ℝ)))
  voiceprints : List (String × List ℝ)

/-- Python dict assignment `d[k] = v` on an association list: overwrite in
place if the key exists, else append at the end. -/
def setKey : List (String × List ℝ) → String → List ℝ → List (String × List ℝ)
  | [], k, v => [(k, v)]
  | (k', v') :: rest, k, v =>
      if k' == k then (k', v) :: rest else (k', v') :: setKey rest k v

/-- `np.stack` + `np.mean(axis=0)` (`storage.py` lines 158-159):
component-wise sum divided by the number of rows. -/
def vecSum : List (List ℝ) → List ℝ
  | [] => []
  | [v] => v
  | v :: rest => List.zipWith (fun x y => x + y) v (vecSum rest)

/-- Component-wise arithmetic mean of the stacked rows. -/
noncomputable def npMeanAxis0 (l : List (List ℝ)) : List ℝ :=
  (vecSum l).map (fun x => x / l.length)

/-- `recompute_voiceprint` of `storage.py` (lines 135-162): no-op when the
user is missing, has no samples, or no sample carries features; otherwise
overwrite the user's voiceprint with the centroid of the feature vectors. -/
noncomputable def recompute_voiceprint (st : Storage) (username : String) :
    Storage :=
  match st.users.lookup username with
  | none => st
  | some samples =>
    if samples.isEmpty then st
    else
      let feature_list := samples.filterMap id
      if feature_list.isEmpty then st
      else
        { st with voiceprints :=
            setKey st.voiceprints username (npMeanAxis0 feature_list) }

/-! ### Basic facts about `dot`, `normSq` and `l2norm` -/

@[simp]
lemma dot_nil (b : List ℝ) : dot [] b = 0 := rfl

@[simp]
lemma dot_nil_right (a : List ℝ) : dot a [] = 0 := by cases a <;> rfl

lemma dot_cons (x y : ℝ) (t u : List ℝ) :
    dot (x :: t) (y :: u) = x * y + dot t u := by
  simp [dot]

lemma dot_comm : ∀ (a b : List ℝ), dot a b = dot b a
  | [], b => by simp
  | a, [] => by simp
  | x :: t, y :: u => by rw [dot_cons, dot_cons, dot_comm t u, mul_comm]

lemma normSq_cons (x : ℝ) (t : List ℝ) :
    normSq (x :: t) = x * x + normSq t := dot_cons x x t t

lemma normSq_nonneg (v : List ℝ) : 0 ≤ normSq v := by
  induction v with
  | nil => simp [normSq]
  | cons x t ih =>
      rw [normSq_cons]
      have := mul_self_nonneg x
      linarith

lemma l2norm_nonneg (v : List ℝ) : 0 ≤ l2norm v := Real.sqrt_nonneg _

lemma sq_l2norm (v : List ℝ) : l2norm v ^ 2 = normSq v :=
  Real.sq_sqrt (normSq_nonneg v)

lemma l2norm_eq_zero_iff (v : List ℝ) : l2norm v = 0 ↔ normSq v = 0 := by
  rw [l2norm, Real.sqrt_eq_zero (normSq_nonneg v)]

lemma l2norm_single (x : ℝ) (hx : 0 ≤ x) : l2norm [x] = x := by
  have h : normSq [x] = x * x := by simp [normSq, dot]
  rw [l2norm, h, Real.sqrt_mul_self hx]

lemma l2norm_pair (x : ℝ) (hx : 0 ≤ x) : l2norm [x, 0] = x := by
  have h : normSq [x, 0] = x * x := by simp [normSq, dot]
  rw [l2norm, h, Real.sqrt_mul_self hx]

lemma normSq_replicate_zero (n : ℕ) : normSq (List.replicate n (0:ℝ)) = 0 := by
  induction n with
  | zero => simp [normSq]
  | succ n ih => rw [List.replicate_succ, normSq_cons, ih]; ring

lemma l2norm_replicate_zero (n : ℕ) : l2norm (List.replicate n (0:ℝ)) = 0 := by
  rw [l2norm, normSq_replicate_zero, Real.sqrt_zero]

lemma eps_pos : (0:ℝ) < eps := by rw [eps]; norm_num

lemma normalizeIf_length (v : List ℝ) : (normalizeIf v).length = v.length := by
  rw [normalizeIf]; split <;> simp

lemma dot_eq_zero_of_normSq_left :
    ∀ (a b : List ℝ), normSq a = 0 → dot a b = 0
  | [], _, _ => by simp
  | _ :: _, [], _ => by simp
  | x :: t, y :: u, h => by
      rw [normSq_cons] at h
      have hx2 : 0 ≤ x * x := mul_self_nonneg x
      have ht : 0 ≤ normSq t := normSq_nonneg t
      have hx : x = 0 := by
        have : x * x = 0 := by linarith
        exact mul_self_eq_zero.mp this
      have h0 : normSq t = 0 := by linarith
      rw [dot_cons, hx, dot_eq_zero_of_normSq_left t u h0]
      ring

/-- Expansion of the squared norm of `t • a - s • b` for equal-length
vectors; the discriminant step of Cauchy-Schwarz. -/
lemma normSq_combo (t s : ℝ) :
    ∀ (a b : List ℝ), a.length = b.length →
      normSq (List.zipWith (fun x y => t * x - s * y) a b) =
        t ^ 2 * normSq a - 2 * t * s * dot a b + s ^ 2 * normSq b
  | [], [], _ => by simp [normSq]
  | [], _ :: _, h => by simp at h
  | _ :: _, [], h => by simp at h
  | x :: a, y :: b, h => by
      have h' : a.length = b.length := by simpa using h
      simp only [List.zipWith_cons_cons]
      rw [normSq_cons, normSq_cons, normSq_cons, dot_cons,
        normSq_combo t s a b h']
      ring

/-- Cauchy-Schwarz for equal-length vectors. -/
lemma abs_dot_le (a b : List ℝ) (h : a.length = b.length) :
    |dot a b| ≤ l2norm a * l2norm b := by
  have hna : 0 ≤ l2norm a := l2norm_nonneg a
  have hnb : 0 ≤ l2norm b := l2norm_nonneg b
  have hsa : l2norm a ^ 2 = normSq a := sq_l2norm a
  have hsb : l2norm b ^ 2 = normSq b := sq_l2norm b
  rcases eq_or_lt_of_le (mul_nonneg hna hnb) with hz | hpos
  · rcases mul_eq_zero.mp hz.symm with h0 | h0
    · have : dot a b = 0 :=
        dot_eq_zero_of_normSq_left a b ((l2norm_eq_zero_iff a).mp h0)
      rw [this, abs_zero]
      exact mul_nonneg hna hnb
    · have : dot a b = 0 := by
        rw [dot_comm]
        exact dot_eq_zero_of_normSq_left b a ((l2norm_eq_zero_iff b).mp h0)
      rw [this, abs_zero]
      exact mul_nonneg hna hnb
  · have h1 := normSq_nonneg (List.zipWith
      (fun x y => l2norm b * x - l2norm a * y) a b)
    rw [normSq_combo (l2norm b) (l2norm a) a b h] at h1
    have h2 := normSq_nonneg (List.zipWith
      (fun x y => l2norm b * x - -(l2norm a) * y) a b)
    rw [normSq_combo (l2norm b) (-(l2norm a)) a b h] at h2
    have key1 : l2norm a * l2norm b * dot a b ≤
        (l2norm a * l2norm b) * (l2norm a * l2norm b) := by nlinarith
    have key2 : l2norm a * l2norm b * (-(dot a b)) ≤
        (l2norm a * l2norm b) * (l2norm a * l2norm b) := by nlinarith
    rw [abs_le]
    constructor
    · nlinarith
    · nlinarith

/-- The cosine distance of two equal-length vectors lies in `[0, 2]`. -/
lemma cosine_bounds (a b : List ℝ) (h : a.length = b.length) :
    0 ≤ _cosine_distance a b ∧ _cosine_distance a b ≤ 2 := by
  rw [_cosine_distance]
  split
  · norm_num
  · rename_i hne
    push_neg at hne
    obtain ⟨ha, hb⟩ := hne
    have hpa : 0 < l2norm a := lt_of_le_of_ne (l2norm_nonneg a) (Ne.symm ha)
    have hpb : 0 < l2norm b := lt_of_le_of_ne (l2norm_nonneg b) (Ne.symm hb)
    have hpos : 0 < l2norm a * l2norm b := mul_pos hpa hpb
    have habs := abs_dot_le a b h
    rw [abs_le] at habs
    constructor
    · have h1 : dot a b / (l2norm a * l2norm b) ≤ 1 :=
        (div_le_one hpos).mpr habs.2
      linarith
    · have h2 : (-1 : ℝ) ≤ dot a b / (l2norm a * l2norm b) := by
        rw [le_div_iff₀ hpos]
        linarith [habs.1]
      linarith

/-! ### The scanning loop of `predict_speaker` -/

lemma matchStep_skip (q : List ℝ) (acc : Option String × Option ℝ)
    (e : String × List ℝ) (h : e.2.length ≠ q.length) :
    matchStep q acc e = acc := by
  rw [matchStep, if_pos h]

lemma matchStep_none (q : List ℝ) (u : Option String) (e : String × List ℝ)
    (h : e.2.length = q.length) :
    matchStep q (u, none) e = (some e.1, some (entryDist q e)) := by
  rw [matchStep, if_neg (by simp [h])]
  rfl

lemma matchStep_some (q : List ℝ) (u : Option String) (best : ℝ)
    (e : String × List ℝ) (h : e.2.length = q.length) :
    matchStep q (u, some best) e =
      if entryDist q e < best then (some e.1, some (entryDist q e))
      else (u, some best) := by
  rw [matchStep, if_neg (by simp [h])]
  rfl

/-- Invariant of the loop of `predict_speaker` over entries that all match
the query's shape, started from a current best `(u0, d0)`: the final best
distance is the minimum of `d0` and all entry distances, and the final best
user changes only for a strictly smaller distance, every earlier surviving
entry being strictly worse. -/
lemma foldl_matchStep_inv (q : List ℝ) :
    ∀ (l : List (String × List ℝ)), (∀ e ∈ l, e.2.length = q.length) →
    ∀ (u0 : String) (d0 : ℝ),
    ∃ u d, l.foldl (matchStep q) (some u0, some d0) = (some u, some d) ∧
      d ≤ d0 ∧ (∀ e ∈ l, d ≤ entryDist q e) ∧
      ((u = u0 ∧ d = d0) ∨
       (∃ l₁ v l₂, l = l₁ ++ (u, v) :: l₂ ∧ entryDist q (u, v) = d ∧
         d < d0 ∧ ∀ e ∈ l₁, d < entryDist q e)) := by
  intro l
  induction l with
  | nil =>
      intro _ u0 d0
      exact ⟨u0, d0, rfl, le_refl _, by simp, Or.inl ⟨rfl, rfl⟩⟩
  | cons e t ih =>
      intro hl u0 d0
      have he : e.2.length = q.length := hl e (List.mem_cons_self e t)
      have ht : ∀ e' ∈ t, e'.2.length = q.length :=
        fun e' h' => hl e' (List.mem_cons_of_mem e h')
      rw [List.foldl_cons, matchStep_some q (some u0) d0 e he]
      by_cases hlt : entryDist q e < d0
      · rw [if_pos hlt]
        obtain ⟨u, d, hfold, hle, hmin, hdisj⟩ := ih ht e.1 (entryDist q e)
        refine ⟨u, d, hfold, le_of_lt (lt_of_le_of_lt hle hlt), ?_, ?_⟩
        · intro e' he'
          rcases List.mem_cons.mp he' with rfl | he'
          · exact hle
          · exact hmin e' he'
        · right
          rcases hdisj with ⟨hu, hd⟩ | ⟨l₁, v, l₂, hsplit, hdv, hdlt, hl₁⟩
          · subst hu
            refine ⟨[], e.2, t, by simp, hd.symm, hd ▸ hlt, by simp⟩
          · refine ⟨e :: l₁, v, l₂, by rw [hsplit]; simp, hdv,
              lt_trans hdlt hlt, ?_⟩
            intro e' he'
            rcases List.mem_cons.mp he' with rfl | he'
            · exact hdlt
            · exact hl₁ e' he'
      · rw [if_neg hlt]
        have hd0e : d0 ≤ entryDist q e := not_lt.mp hlt
        obtain ⟨u, d, hfold, hle, hmin, hdisj⟩ := ih ht u0 d0
        refine ⟨u, d, hfold, hle, ?_, ?_⟩
        · intro e' he'
          rcases List.mem_cons.mp he' with rfl | he'
          · exact le_trans hle hd0e
          · exact hmin e' he'
        · rcases hdisj with hl | ⟨l₁, v, l₂, hsplit, hdv, hdlt, hl₁⟩
          · exact Or.inl hl
          · right
            refine ⟨e :: l₁, v, l₂, by rw [hsplit]; simp, hdv, hdlt, ?_⟩
            intro e' he'
            rcases List.mem_cons.mp he' with rfl | he'
            · exact lt_of_lt_of_le hdlt hd0e
            · exact hl₁ e' he'

/-- The loop skips exactly the entries whose shape does not match. -/
lemma foldl_matchStep_filter (q : List ℝ) :
    ∀ (l : List (String × List ℝ)) (acc : Option String × Option ℝ),
      l.foldl (matchStep q) acc =
        (l.filter (fun e => e.2.length == q.length)).foldl (matchStep q) acc := by
  intro l
  induction l with
  | nil => intro acc; rfl
  | cons e t ih =>
      intro acc
      by_cases he : e.2.length = q.length
      · rw [List.foldl_cons, List.filter_cons_of_pos (by simpa using he),
          List.foldl_cons, ih]
      · rw [List.foldl_cons, matchStep_skip q acc e he,
          List.filter_cons_of_neg (by simpa using he), ih]

/-- Case analysis of `predict_speaker`: either no entry matches the query's
shape and the result is `(none, none)`, or the result is the first
minimum-distance matching entry. -/
lemma predict_speaker_cases (vps : List (String × List ℝ)) (s : List ℝ) :
    (matchingVPs vps s = [] ∧ predict_speaker vps s = (none, none)) ∨
    (∃ u d, predict_speaker vps s = (some u, some d) ∧
      (∀ e ∈ matchingVPs vps s, d ≤ entryDist (normalizeIf s) e) ∧
      ∃ l₁ v l₂, matchingVPs vps s = l₁ ++ (u, v) :: l₂ ∧
        entryDist (normalizeIf s) (u, v) = d ∧
        ∀ e ∈ l₁, d < entryDist (normalizeIf s) e) := by
  have hmq : matchingVPs vps s =
      vps.filter (fun e => e.2.length == (normalizeIf s).length) := by
    rw [matchingVPs, normalizeIf_length]
  by_cases hm : matchingVPs vps s = []
  · left
    refine ⟨hm, ?_⟩
    by_cases hv : vps.isEmpty
    · unfold predict_speaker
      rw [if_pos hv]
    · unfold predict_speaker
      rw [if_neg hv, foldl_matchStep_filter, ← hmq, hm, List.foldl_nil]
  · right
    obtain ⟨m, ms, hcons⟩ := List.exists_cons_of_ne_nil hm
    have hvne : vps ≠ [] := by
      intro h
      subst h
      rw [matchingVPs] at hm
      exact hm rfl
    have hv : ¬ vps.isEmpty = true := by simpa [List.isEmpty_iff] using hvne
    have hmmem : m ∈ matchingVPs vps s := by rw [hcons]; exact List.mem_cons_self m ms
    have hmlen : m.2.length = (normalizeIf s).length := by
      have h1 := hmq ▸ hmmem
      simpa using (List.mem_filter.mp h1).2
    have hms : ∀ e ∈ ms, e.2.length = (normalizeIf s).length := by
      intro e hems
      have h1 : e ∈ matchingVPs vps s := by
        rw [hcons]
        exact List.mem_cons_of_mem m hems
      have h2 := hmq ▸ h1
      simpa using (List.mem_filter.mp h2).2
    obtain ⟨u, d, hfold, hle, hmin, hdisj⟩ :=
      foldl_matchStep_inv (normalizeIf s) ms hms m.1 (entryDist (normalizeIf s) m)
    have hψ : predict_speaker vps s = (some u, some d) := by
      unfold predict_speaker
      rw [if_neg hv, foldl_matchStep_filter, ← hmq, hcons, List.foldl_cons,
        matchStep_none _ _ _ hmlen, hfold]
    refine ⟨u, d, hψ, ?_, ?_⟩
    · rw [hcons]
      intro e he
      rcases List.mem_cons.mp he with rfl | he
      · exact hle
      · exact hmin e he
    · rcases hdisj with ⟨hu, hd⟩ | ⟨l₁, v, l₂, hsplit, hdv, hdlt, hl₁⟩
      · subst hu
        refine ⟨[], m.2, ms, by rw [hcons]; simp, hd.symm, by simp⟩
      · refine ⟨m :: l₁, v, l₂, by rw [hcons, hsplit]; simp, hdv, ?_⟩
        intro e he
        rcases List.mem_cons.mp he with rfl | he
        · exact hdlt
        · exact hl₁ e he

/-! ### VAD and feature extraction -/

lemma apply_vad_ne_nil (trim : List ℝ → List ℝ)
    (split : List ℝ → List (ℕ × ℕ)) (y : List ℝ) (hy : y ≠ []) :
    _apply_vad trim split y ≠ [] := by
  simp only [_apply_vad]
  split
  · -- everything got trimmed: fall back to the original waveform
    split
    · exact hy
    · split
      · exact hy
      · rename_i h2
        simpa [List.isEmpty_iff] using h2
  · rename_i h
    have htr : trim y ≠ [] := by simpa [List.isEmpty_iff] using h
    split
    · exact htr
    · split
      · exact htr
      · rename_i h2
        simpa [List.isEmpty_iff] using h2

/-- With identity trimming and a splitter that finds no intervals, VAD
returns the waveform unchanged. -/
lemma apply_vad_id_nosplit (y : List ℝ) :
    _apply_vad id (fun _ => []) y = y := by
  simp [_apply_vad]

lemma extract_eval_notfound (y : List ℝ) (trim : List ℝ → List ℝ)
    (split : List ℝ → List (ℕ × ℕ)) (mfcc : List ℝ → List (List ℝ)) :
    extract_features false y trim split mfcc = .error .inputError := by
  simp [extract_features]

lemma extract_eval_empty (trim : List ℝ → List ℝ)
    (split : List ℝ → List (ℕ × ℕ)) (mfcc : List ℝ → List (List ℝ)) :
    extract_features true [] trim split mfcc = .error .inputError := by
  simp [extract_features]

lemma extract_eval_short (y : List ℝ) (trim : List ℝ → List ℝ)
    (split : List ℝ → List (ℕ × ℕ)) (mfcc : List ℝ → List (List ℝ))
    (hy : y ≠ [])
    (h8 : ((_apply_vad trim split y).length : ℝ) < 0.5 * (SAMPLE_RATE : ℝ)) :
    extract_features true y trim split mfcc = .error .insufficientAudio := by
  rw [extract_features, if_neg (by simp), if_neg (by simpa [List.isEmpty_iff]),
    if_pos h8]

lemma extract_eval_ok (y : List ℝ) (trim : List ℝ → List ℝ)
    (split : List ℝ → List (ℕ × ℕ)) (mfcc : List ℝ → List (List ℝ))
    (hy : y ≠ [])
    (h8 : ¬ ((_apply_vad trim split y).length : ℝ) < 0.5 * (SAMPLE_RATE : ℝ))
    (h2 : ¬ (mfcc (_apply_vad trim split y)).length < 2) :
    extract_features true y trim split mfcc =
      .ok (normalizeIf (rawFeature (mfcc (_apply_vad trim split y)))) := by
  rw [extract_features, if_neg (by simp), if_neg (by simpa [List.isEmpty_iff]),
    if_neg h8, if_neg h2]

/-- Any `.ok` result of `extract_features` is the re-normalized statistics
vector of the mfcc matrix of the voiced waveform. -/
lemma extract_ok_inv (fe : Bool) (y : List ℝ) (trim : List ℝ → List ℝ)
    (split : List ℝ → List (ℕ × ℕ)) (mfcc : List ℝ → List (List ℝ))
    (v : List ℝ) (hok : extract_features fe y trim split mfcc = .ok v) :
    v = normalizeIf (rawFeature (mfcc (_apply_vad trim split y))) := by
  rw [extract_features] at hok
  split_ifs at hok
  exact (Except.ok.injEq _ _ ▸ hok).symm

lemma listMean_single (x : ℝ) : listMean [x] = x := by
  simp [listMean]

lemma listStd_single (x : ℝ) : listStd [x] = 0 := by
  simp [listStd, listMean]

lemma rawFeature_two (r0 r1 : List ℝ) :
    rawFeature [r0, r1] = [listMean r1, listStd r1] := by
  simp [rawFeature]

lemma rawFeature_length (m : List (List ℝ)) :
    (rawFeature m).length = 2 * (m.length - 1) := by
  simp [rawFeature]
  omega

lemma normSq_map_div : ∀ (v : List ℝ) (n : ℝ),
    normSq (v.map (fun x => x / n)) = normSq v / (n * n)
  | [], n => by simp [normSq]
  | x :: t, n => by
      rw [List.map_cons, normSq_cons, normSq_cons, normSq_map_div t n,
        div_mul_div_comm, div_add_div_same]

lemma normalizeIf_of_le (v : List ℝ) (h : ¬ eps < l2norm v) :
    normalizeIf v = v := by
  rw [normalizeIf, if_neg h]

lemma normalizeIf_of_lt (v : List ℝ) (h : eps < l2norm v) :
    normalizeIf v = v.map (fun x => x / l2norm v) := by
  rw [normalizeIf, if_pos h]

/-- A vector whose norm exceeds the epsilon is scaled to exact unit norm. -/
lemma l2norm_normalizeIf (v : List ℝ) (h : eps < l2norm v) :
    l2norm (normalizeIf v) = 1 := by
  have hn : 0 < l2norm v := lt_trans eps_pos h
  rw [normalizeIf_of_lt v h, l2norm, normSq_map_div, ← sq_l2norm v]
  have h1 : l2norm v ^ 2 / (l2norm v * l2norm v) = 1 := by
    rw [pow_two]
    exact div_self (mul_ne_zero (ne_of_gt hn) (ne_of_gt hn))
  rw [h1, Real.sqrt_one]

/-! ### Storage: voiceprint recomputation -/

lemma lookup_setKey_ne :
    ∀ (l : List (String × List ℝ)) (u k : String) (c : List ℝ), k ≠ u →
      (setKey l u c).lookup k = l.lookup k
  | [], u, k, c, h => by
      simp [setKey, List.lookup_cons, beq_false_of_ne h]
  | (k', v') :: rest, u, k, c, h => by
      rw [setKey]
      split
      · rename_i hk
        have hku : k' = u := by simpa using hk
        have hkk : (k == k') = false := beq_false_of_ne (by rw [hku]; exact h)
        rw [List.lookup_cons, List.lookup_cons, hkk]
      · rw [List.lookup_cons, List.lookup_cons,
          lookup_setKey_ne rest u k c h]

lemma vecSum_singleton (v : List ℝ) : vecSum [v] = v := rfl

lemma vecSum_cons₂ (v w : List ℝ) (rest : List (List ℝ)) :
    vecSum (v :: w :: rest) =
      List.zipWith (fun x y => x + y) v (vecSum (w :: rest)) := rfl

lemma vecSum_length (d : ℕ) :
    ∀ (l : List (List ℝ)), l ≠ [] → (∀ v ∈ l, v.length = d) →
      (vecSum l).length = d
  | [], h, _ => absurd rfl h
  | [v], _, hl => by rw [vecSum_singleton]; exact hl v (by simp)
  | v :: w :: rest, _, hl => by
      rw [vecSum_cons₂, List.length_zipWith, hl v (by simp),
        vecSum_length d (w :: rest) (by simp)
          (fun e he => hl e (List.mem_cons_of_mem v he)),
        min_self]

lemma zipWith_add_getD :
    ∀ (a b : List ℝ) (i : ℕ), i < a.length → i < b.length →
      (List.zipWith (fun x y => x + y) a b).getD i 0 =
        a.getD i 0 + b.getD i 0
  | [], _, i, ha, _ => by simp at ha
  | _ :: _, [], i, _, hb => by simp at hb
  | x :: t, y :: u, 0, _, _ => by simp
  | x :: t, y :: u, i + 1, ha, hb => by
      simp only [List.zipWith_cons_cons, List.getD_cons_succ]
      exact zipWith_add_getD t u i (by simpa using ha) (by simpa using hb)

lemma vecSum_getD (d i : ℕ) (hi : i < d) :
    ∀ (l : List (List ℝ)), (∀ v ∈ l, v.length = d) →
      (vecSum l).getD i 0 = (l.map (fun v => v.getD i 0)).sum
  | [], _ => by simp [vecSum]
  | [v], _ => by simp [vecSum_singleton]
  | v :: w :: rest, hl => by
      rw [vecSum_cons₂, List.map_cons, List.sum_cons]
      have h1 : i < v.length := by rw [hl v (by simp)]; exact hi
      have h2 : i < (vecSum (w :: rest)).length := by
        rw [vecSum_length d (w :: rest) (by simp)
          (fun e he => hl e (List.mem_cons_of_mem v he))]
        exact hi
      rw [zipWith_add_getD v (vecSum (w :: rest)) i h1 h2,
        vecSum_getD d i hi (w :: rest)
          (fun e he => hl e (List.mem_cons_of_mem v he))]

lemma getD_map_div :
    ∀ (v : List ℝ) (c : ℝ) (i : ℕ), i < v.length →
      (v.map (fun x => x / c)).getD i 0 = v.getD i 0 / c
  | [], _, i, hi => by simp at hi
  | x :: t, c, 0, _ => by simp
  | x :: t, c, i + 1, hi => by
      simp only [List.map_cons, List.getD_cons_succ]
      exact getD_map_div t c i (by simpa using hi)

/-- Component-wise value of the centroid: the mean of the components. -/
lemma npMeanAxis0_getD (d i : ℕ) (hi : i < d) (l : List (List ℝ))
    (hne : l ≠ []) (hl : ∀ v ∈ l, v.length = d) :
    (npMeanAxis0 l).getD i 0 =
      (l.map (fun v => v.getD i 0)).sum / l.length := by
  have hlen : i < (vecSum l).length := by
    rw [vecSum_length d l hne hl]; exact hi
  rw [npMeanAxis0, getD_map_div (vecSum l) _ i hlen, vecSum_getD d i hi l hl]

/-- The centroid does not depend on the order of the rows. -/
lemma npMeanAxis0_perm (d : ℕ) (l₁ l₂ : List (List ℝ))
    (hl : ∀ v ∈ l₁, v.length = d) (hp : l₁.Perm l₂) :
    npMeanAxis0 l₁ = npMeanAxis0 l₂ := by
  rcases eq_or_ne l₁ [] with rfl | hne
  · rw [hp.symm.eq_nil]
  · have hl₂ : ∀ v ∈ l₂, v.length = d := fun v hv => hl v (hp.mem_iff.mpr hv)
    have hne₂ : l₂ ≠ [] := by
      intro h
      exact hne ((h ▸ hp).eq_nil)
    have hlen1 : (vecSum l₁).length = d := vecSum_length d l₁ hne hl
    have hlen2 : (vecSum l₂).length = d := vecSum_length d l₂ hne₂ hl₂
    have hsum : vecSum l₁ = vecSum l₂ := by
      apply List.ext_getElem (by rw [hlen1, hlen2])
      intro i h1 h2
      have hi : i < d := hlen1 ▸ h1
      rw [← List.getD_eq_getElem (vecSum l₁) 0 h1,
        ← List.getD_eq_getElem (vecSum l₂) 0 h2,
        vecSum_getD d i hi l₁ hl, vecSum_getD d i hi l₂ hl₂]
      exact (hp.map (fun v => v.getD i 0)).sum_eq
    rw [npMeanAxis0, npMeanAxis0, hsum, hp.length_eq]

lemma extract_eval_fewmfcc (y : List ℝ) (trim : List ℝ → List ℝ)
    (split : List ℝ → List (ℕ × ℕ)) (mfcc : List ℝ → List (List ℝ))
    (hy : y ≠ [])
    (h8 : ¬ ((_apply_vad trim split y).length : ℝ) < 0.5 * (SAMPLE_RATE : ℝ))
    (h2 : (mfcc (_apply_vad trim split y)).length < 2) :
    extract_features true y trim split mfcc = .error .notEnoughMFCC := by
  rw [extract_features, if_neg (by simp), if_neg (by simpa [List.isEmpty_iff]),
    if_neg h8, if_pos h2]

lemma recompute_voiceprint_of_none (st : Storage) (u : String)
    (h : st.users.lookup u = none) : recompute_voiceprint st u = st := by
  simp only [recompute_voiceprint, h]

lemma recompute_voiceprint_of_nofeat (st : Storage) (u : String)
    (samples : List (Option (List ℝ))) (h : st.users.lookup u = some samples)
    (hfl : samples.filterMap id = []) : recompute_voiceprint st u = st := by
  simp only [recompute_voiceprint, h]
  by_cases hs : samples.isEmpty
  · rw [if_pos hs]
  · rw [if_neg hs, if_pos (by simpa [List.isEmpty_iff] using hfl)]

lemma recompute_voiceprint_eval (st : Storage) (u : String)
    (samples : List (Option (List ℝ))) (h : st.users.lookup u = some samples)
    (hfl : samples.filterMap id ≠ []) :
    recompute_voiceprint st u =
      { st with voiceprints :=
          setKey st.voiceprints u (npMeanAxis0 (samples.filterMap id)) } := by
  have hs : samples ≠ [] := by
    intro hnil
    subst hnil
    exact hfl rfl
  simp only [recompute_voiceprint, h]
  rw [if_neg (by simpa [List.isEmpty_iff] using hs),
    if_neg (by simpa [List.isEmpty_iff] using hfl)]

/-! ### Claim theorems -/

/-- Claim C1: whenever at least one stored voiceprint matches the query's
shape, `predict_speaker` returns `(some best_user, some best_distance)`
where `best_distance` is the minimum, over all shape-matching entries, of
the cosine distance between the re-normalized query and the re-normalized
stored vector, and `best_user` is the first entry in iteration order
attaining that minimum (every earlier matching entry is strictly worse, so
ties keep the first-encountered candidate). -/
theorem predict_speaker_finds_min (vps : List (String × List ℝ))
    (s : List ℝ) (hm : matchingVPs vps s ≠ []) :
    ∃ u d, predict_speaker vps s = (some u, some d) ∧
      (∀ e ∈ matchingVPs vps s, d ≤ entryDist (normalizeIf s) e) ∧
      ∃ l₁ v l₂, matchingVPs vps s = l₁ ++ (u, v) :: l₂ ∧
        entryDist (normalizeIf s) (u, v) = d ∧
        ∀ e ∈ l₁, d < entryDist (normalizeIf s) e := by
  rcases predict_speaker_cases vps s with ⟨h, _⟩ | h
  · exact absurd h hm
  · exact h

/-- Witness for C1 at a concrete mapping and query. -/
theorem predict_speaker_finds_min_witness :
    matchingVPs [("alice", [(1:ℝ), 0])] [(1:ℝ), 0] ≠ [] ∧
    (∃ u d,
      predict_speaker [("alice", [(1:ℝ), 0])] [(1:ℝ), 0] = (some u, some d) ∧
      (∀ e ∈ matchingVPs [("alice", [(1:ℝ), 0])] [(1:ℝ), 0],
        d ≤ entryDist (normalizeIf [(1:ℝ), 0]) e) ∧
      ∃ l₁ v l₂,
        matchingVPs [("alice", [(1:ℝ), 0])] [(1:ℝ), 0] = l₁ ++ (u, v) :: l₂ ∧
        entryDist (normalizeIf [(1:ℝ), 0]) (u, v) = d ∧
        ∀ e ∈ l₁, d < entryDist (normalizeIf [(1:ℝ), 0]) e) :=
  ⟨by simp [matchingVPs], predict_speaker_finds_min _ _ (by simp [matchingVPs])⟩

/-- Claim C7: `predict_speaker` returns `(none, none)` exactly when the
mapping is empty or every stored voiceprint's dimension differs from the
query's (all entries skipped). -/
theorem predict_speaker_none_iff (vps : List (String × List ℝ))
    (s : List ℝ) :
    predict_speaker vps s = (none, none) ↔
      ∀ e ∈ vps, e.2.length ≠ s.length := by
  constructor
  · intro h e hev helen
    rcases predict_speaker_cases vps s with ⟨hm, _⟩ | ⟨u, d, heq, _⟩
    · have : e ∈ matchingVPs vps s :=
        List.mem_filter.mpr ⟨hev, by simpa using helen⟩
      rw [hm] at this
      exact absurd this (List.not_mem_nil e)
    · rw [h] at heq
      exact absurd (congrArg Prod.fst heq) (by simp)
  · intro h
    rcases predict_speaker_cases vps s with ⟨_, hnone⟩ | ⟨u, d, _, _, l₁, v, l₂, hsplit, _⟩
    · exact hnone
    · exfalso
      have hm : (u, v) ∈ matchingVPs vps s := by
        rw [hsplit]
        exact List.mem_append_right _ (List.mem_cons_self _ _)
      obtain ⟨hmem, hlen⟩ := List.mem_filter.mp hm
      exact h (u, v) hmem (by simpa using hlen)

/-- Claim C9: the cosine distance of equal-dimension vectors lies in
`[0, 2]`, and any non-absent distance returned by `predict_speaker` lies
in `[0, 2]`. -/
theorem cosine_distance_in_range :
    (∀ a b : List ℝ, a.length = b.length →
      0 ≤ _cosine_distance a b ∧ _cosine_distance a b ≤ 2) ∧
    (∀ (vps : List (String × List ℝ)) (s : List ℝ) (u : Option String)
      (d : ℝ), predict_speaker vps s = (u, some d) → 0 ≤ d ∧ d ≤ 2) := by
  refine ⟨cosine_bounds, ?_⟩
  intro vps s u d hps
  rcases predict_speaker_cases vps s with ⟨_, hnone⟩ |
    ⟨u', d', heq, _, l₁, v, l₂, hsplit, hdv, _⟩
  · rw [hps] at hnone
    exact absurd (congrArg Prod.snd hnone) (by simp)
  · have h0 : (some u', some d') = (u, some d) := heq.symm.trans hps
    have hd : d' = d := by
      have := congrArg Prod.snd h0
      simpa using this
    have hm : (u', v) ∈ matchingVPs vps s := by
      rw [hsplit]
      exact List.mem_append_right _ (List.mem_cons_self _ _)
    have hlen : v.length = s.length := by
      simpa using (List.mem_filter.mp hm).2
    have hb := cosine_bounds (normalizeIf s) (normalizeIf v)
      (by rw [normalizeIf_length, normalizeIf_length, hlen])
    rw [← hd, ← hdv]
    exact hb

/-- Claim C2 counterexample: a stored vector of norm `1e-12` is below the
`1e-10` epsilon yet its cosine distance to the query `[1]` is `0`, not
`2.0`, both through `_cosine_distance` directly and through the matcher's
re-normalization path: the code returns `2.0` only for exactly-zero norms. -/
theorem cosine_small_norm_cex :
    l2norm [(1:ℝ) / 10 ^ 12] < eps ∧
    l2norm [(1:ℝ) / 10 ^ 12] ≠ 0 ∧
    _cosine_distance [(1:ℝ)] [(1:ℝ) / 10 ^ 12] = 0 ∧
    entryDist [(1:ℝ)] ("bob", [(1:ℝ) / 10 ^ 12]) = 0 := by
  have hx : l2norm [(1:ℝ) / 10 ^ 12] = 1 / 10 ^ 12 :=
    l2norm_single _ (by norm_num)
  have h1 : l2norm [(1:ℝ)] = 1 := l2norm_single 1 (by norm_num)
  have hdot : dot [(1:ℝ)] [(1:ℝ) / 10 ^ 12] = 1 / 10 ^ 12 := by
    simp [dot]
  have hcd : _cosine_distance [(1:ℝ)] [(1:ℝ) / 10 ^ 12] = 0 := by
    rw [_cosine_distance,
      if_neg (by rw [hx, h1]; push_neg; constructor <;> norm_num),
      hdot, hx, h1]
    norm_num
  refine ⟨by rw [hx, eps]; norm_num, by rw [hx]; norm_num, hcd, ?_⟩
  have hni : normalizeIf [(1:ℝ) / 10 ^ 12] = [(1:ℝ) / 10 ^ 12] :=
    normalizeIf_of_le _ (by rw [hx, eps]; norm_num)
  show _cosine_distance [(1:ℝ)] (normalizeIf [(1:ℝ) / 10 ^ 12]) = 0
  rw [hni, hcd]

/-- Claim C2 (amended): the cosine distance is `2.0` whenever either
vector's norm is exactly zero; in particular a zero-vector voiceprint gets
distance `2.0` from the matcher regardless of the query. -/
theorem cosine_distance_zero_norm :
    (∀ a b : List ℝ, l2norm a = 0 ∨ l2norm b = 0 →
      _cosine_distance a b = 2) ∧
    (∀ (q : List ℝ) (name : String) (n : ℕ),
      entryDist q (name, List.replicate n 0) = 2) := by
  constructor
  · intro a b h
    rw [_cosine_distance, if_pos h]
  · intro q name n
    show _cosine_distance q (normalizeIf (List.replicate n 0)) = 2
    rw [normalizeIf_of_le _ (by
      rw [l2norm_replicate_zero]
      exact not_lt.mpr (le_of_lt eps_pos)),
      _cosine_distance, if_pos (Or.inr (l2norm_replicate_zero n))]

/-- Claim C5: for every non-empty input waveform, the VAD glue returns a
non-empty waveform whatever the external trim and split routines return,
thanks to the three-tier fallback. -/
theorem apply_vad_returns_nonempty (trim : List ℝ → List ℝ)
    (split : List ℝ → List (ℕ × ℕ)) (y : List ℝ) (hy : y ≠ []) :
    _apply_vad trim split y ≠ [] :=
  apply_vad_ne_nil trim split y hy

/-- Witness for C5 on a concrete waveform with an all-silence splitter. -/
theorem apply_vad_returns_nonempty_witness :
    _apply_vad id (fun _ => []) [(1:ℝ)] ≠ [] :=
  apply_vad_returns_nonempty id (fun _ => []) [(1:ℝ)] (by simp)

/-- Claim C4: extraction fails with the spec's `InputError` exactly when
the file is missing or the waveform is empty, and — the input checks
passing — with `InsufficientAudioError` exactly when the voiced waveform
left by VAD is shorter than `0.5 * SAMPLE_RATE` samples; errors are
returned to the caller, never recovered into a feature vector. -/
theorem extract_features_error_conditions (fe : Bool) (y : List ℝ)
    (trim : List ℝ → List ℝ) (split : List ℝ → List (ℕ × ℕ))
    (mfcc : List ℝ → List (List ℝ)) :
    (extract_features fe y trim split mfcc = .error .inputError ↔
      fe = false ∨ y = []) ∧
    (fe = true → y ≠ [] →
      (extract_features fe y trim split mfcc = .error .insufficientAudio ↔
        ((_apply_vad trim split y).length : ℝ) < 0.5 * (SAMPLE_RATE : ℝ))) := by
  cases fe
  · refine ⟨?_, ?_⟩
    · rw [extract_eval_notfound]
      simp
    · intro h
      simp at h
  · rcases eq_or_ne y [] with rfl | hy
    · refine ⟨?_, ?_⟩
      · rw [extract_eval_empty]
        simp
      · intro _ hne
        exact absurd rfl hne
    · by_cases h8 :
        ((_apply_vad trim split y).length : ℝ) < 0.5 * (SAMPLE_RATE : ℝ)
      · rw [extract_eval_short y trim split mfcc hy h8]
        refine ⟨by simp [hy], fun _ _ => by simp [h8]⟩
      · by_cases h2 : (mfcc (_apply_vad trim split y)).length < 2
        · rw [extract_eval_fewmfcc y trim split mfcc hy h8 h2]
          refine ⟨by simp [hy], fun _ _ => by simp [h8]⟩
        · rw [extract_eval_ok y trim split mfcc hy h8 h2]
          refine ⟨by simp [hy], fun _ _ => by simp [h8]⟩

/-- Claim C3 counterexample: with an mfcc oracle whose statistics vector is
`[1e-12, 0]`, extraction succeeds and returns it unscaled — its raw norm
`1e-12` is nonzero yet the returned vector's L2 norm is not within `1e-6`
of `1.0`, because the extractor only re-scales when the norm exceeds
`1e-10`. -/
theorem extract_features_tiny_norm_cex :
    extract_features true (List.replicate 8000 (1:ℝ)) id (fun _ => [])
        (fun _ => [[0], [(1:ℝ) / 10 ^ 12]]) = .ok [(1:ℝ) / 10 ^ 12, 0] ∧
    l2norm [(1:ℝ) / 10 ^ 12, 0] ≠ 0 ∧
    ¬ |l2norm [(1:ℝ) / 10 ^ 12, 0] - 1| ≤ 1 / 10 ^ 6 := by
  have hl2 : l2norm [(1:ℝ) / 10 ^ 12, 0] = 1 / 10 ^ 12 :=
    l2norm_pair _ (by norm_num)
  have hvad : _apply_vad id (fun _ => []) (List.replicate 8000 (1:ℝ)) =
      List.replicate 8000 (1:ℝ) := apply_vad_id_nosplit _
  have hok : extract_features true (List.replicate 8000 (1:ℝ)) id
      (fun _ => []) (fun _ => [[0], [(1:ℝ) / 10 ^ 12]]) =
        .ok [(1:ℝ) / 10 ^ 12, 0] := by
    rw [extract_eval_ok _ _ _ _
      (List.ne_nil_of_length_pos (by rw [List.length_replicate]; norm_num))
      (by rw [hvad, List.length_replicate]; norm_num [SAMPLE_RATE])
      (by norm_num)]
    rw [rawFeature_two, listMean_single, listStd_single,
      normalizeIf_of_le _ (by rw [hl2, eps]; norm_num)]
  refine ⟨hok, by rw [hl2]; norm_num, ?_⟩
  rw [hl2, abs_of_neg (by norm_num)]
  norm_num

/-- Claim C3 (amended): a successfully extracted FeatureVector has L2 norm
exactly `1` (hence within `1e-6` of `1.0`) whenever the raw statistics
vector's norm exceeds the `1e-10` epsilon; otherwise it is returned
unscaled. -/
theorem extract_features_unit_norm (fe : Bool) (y : List ℝ)
    (trim : List ℝ → List ℝ) (split : List ℝ → List (ℕ × ℕ))
    (mfcc : List ℝ → List (List ℝ)) (v : List ℝ)
    (hok : extract_features fe y trim split mfcc = .ok v) :
    (eps < l2norm (rawFeature (mfcc (_apply_vad trim split y))) →
      l2norm v = 1 ∧ |l2norm v - 1| ≤ 1 / 10 ^ 6) ∧
    (¬ eps < l2norm (rawFeature (mfcc (_apply_vad trim split y))) →
      v = rawFeature (mfcc (_apply_vad trim split y))) := by
  have hv := extract_ok_inv fe y trim split mfcc v hok
  subst hv
  refine ⟨fun h => ?_, fun h => normalizeIf_of_le _ h⟩
  have h1 := l2norm_normalizeIf _ h
  rw [h1]
  norm_num

/-- Witness for C3 (amended) at a concrete successful extraction whose raw
statistics vector is `[1, 0]`. -/
theorem extract_features_unit_norm_witness :
    extract_features true (List.replicate 8000 (1:ℝ)) id (fun _ => [])
        (fun _ => [[0], [1]]) = .ok [(1:ℝ), 0] ∧
    l2norm [(1:ℝ), 0] = 1 := by
  have hvad : _apply_vad id (fun _ => []) (List.replicate 8000 (1:ℝ)) =
      List.replicate 8000 (1:ℝ) := apply_vad_id_nosplit _
  have hl2 : l2norm [(1:ℝ), 0] = 1 := l2norm_pair 1 (by norm_num)
  have hok : extract_features true (List.replicate 8000 (1:ℝ)) id
      (fun _ => []) (fun _ => [[0], [1]]) = .ok [(1:ℝ), 0] := by
    rw [extract_eval_ok _ _ _ _
      (List.ne_nil_of_length_pos (by rw [List.length_replicate]; norm_num))
      (by rw [hvad, List.length_replicate]; norm_num [SAMPLE_RATE])
      (by norm_num)]
    rw [rawFeature_two, listMean_single, listStd_single,
      normalizeIf_of_lt _ (by rw [hl2, eps]; norm_num)]
    rw [hl2]
    norm_num
  refine ⟨hok, ?_⟩
  exact ((extract_features_unit_norm true (List.replicate 8000 (1:ℝ)) id
    (fun _ => []) (fun _ => [[0], [1]]) [(1:ℝ), 0] hok).1
    (by rw [rawFeature_two, listMean_single, listStd_single, hl2, eps]
        norm_num)).1

/-- Claim C8: every FeatureVector produced by a successful extraction,
with the mfcc oracle returning the configured `N_MFCC` coefficient rows,
has dimension exactly `2 * (N_MFCC - 1)`: the first coefficient is
discarded and the per-coefficient means are concatenated with the
per-coefficient standard deviations. -/
theorem extract_features_dimension (fe : Bool) (y : List ℝ)
    (trim : List ℝ → List ℝ) (split : List ℝ → List (ℕ × ℕ))
    (mfcc : List ℝ → List (List ℝ)) (v : List ℝ)
    (hok : extract_features fe y trim split mfcc = .ok v)
    (hrows : (mfcc (_apply_vad trim split y)).length = N_MFCC) :
    v.length = 2 * (N_MFCC - 1) := by
  have hv := extract_ok_inv fe y trim split mfcc v hok
  subst hv
  rw [normalizeIf_length, rawFeature_length, hrows]

/-- Witness for C8 at a concrete successful extraction with 13 mfcc rows. -/
theorem extract_features_dimension_witness :
    extract_features true (List.replicate 8000 (1:ℝ)) id (fun _ => [])
        (fun _ => List.replicate 13 [(0:ℝ)]) =
      .ok (List.replicate 24 (0:ℝ)) ∧
    (List.replicate 24 (0:ℝ)).length = 2 * (N_MFCC - 1) := by
  have hvad : _apply_vad id (fun _ => []) (List.replicate 8000 (1:ℝ)) =
      List.replicate 8000 (1:ℝ) := apply_vad_id_nosplit _
  have hraw : rawFeature (List.replicate 13 [(0:ℝ)]) =
      List.replicate 24 (0:ℝ) := by
    rw [rawFeature]
    rw [List.drop_replicate]
    rw [List.map_replicate, List.map_replicate, listMean_single,
      listStd_single, ← List.replicate_add]
  have hok : extract_features true (List.replicate 8000 (1:ℝ)) id
      (fun _ => []) (fun _ => List.replicate 13 [(0:ℝ)]) =
        .ok (List.replicate 24 (0:ℝ)) := by
    rw [extract_eval_ok _ _ _ _
      (List.ne_nil_of_length_pos (by rw [List.length_replicate]; norm_num))
      (by rw [hvad, List.length_replicate]; norm_num [SAMPLE_RATE])
      (by norm_num)]
    rw [hraw, normalizeIf_of_le _ (by
      rw [l2norm_replicate_zero]
      exact not_lt.mpr (le_of_lt eps_pos))]
  exact ⟨hok, extract_features_dimension true (List.replicate 8000 (1:ℝ)) id
    (fun _ => []) (fun _ => List.replicate 13 [(0:ℝ)])
    (List.replicate 24 (0:ℝ)) hok (by simp [N_MFCC])⟩

/-- Claim C6: recomputing a voiceprint from the user's full sample
collection stores the unweighted component-wise arithmetic mean of the
sample vectors, a result independent of sample order; with zero samples
(or a missing user) the operation leaves the storage unchanged.  The toy
instance `[1,0], [0,1], [1,1] ↦ [2/3, 2/3]` is included. -/
theorem recompute_voiceprint_mean :
    (∀ (st : Storage) (u : String),
      st.users.lookup u = some [] → recompute_voiceprint st u = st) ∧
    (∀ (st : Storage) (u : String) (samples : List (Option (List ℝ)))
      (d : ℕ), st.users.lookup u = some samples →
      samples.filterMap id ≠ [] →
      (∀ v ∈ samples.filterMap id, v.length = d) →
      recompute_voiceprint st u =
        { st with voiceprints :=
            setKey st.voiceprints u (npMeanAxis0 (samples.filterMap id)) } ∧
      ∀ i < d, (npMeanAxis0 (samples.filterMap id)).getD i 0 =
        ((samples.filterMap id).map (fun v => v.getD i 0)).sum /
          (samples.filterMap id).length) ∧
    (∀ (d : ℕ) (l₁ l₂ : List (List ℝ)), (∀ v ∈ l₁, v.length = d) →
      l₁.Perm l₂ → npMeanAxis0 l₁ = npMeanAxis0 l₂) ∧
    npMeanAxis0 [[(1:ℝ), 0], [0, 1], [1, 1]] = [2 / 3, 2 / 3] := by
  refine ⟨?_, ?_, npMeanAxis0_perm, ?_⟩
  · intro st u h
    exact recompute_voiceprint_of_nofeat st u [] h rfl
  · intro st u samples d h hfl hlen
    refine ⟨recompute_voiceprint_eval st u samples h hfl, ?_⟩
    intro i hi
    exact npMeanAxis0_getD d i hi _ hfl hlen
  · rw [npMeanAxis0, vecSum_cons₂, vecSum_cons₂, vecSum_singleton]
    norm_num

/-- Claim C10: `recompute_voiceprint u` changes at most the voiceprint
entry keyed by `u`: the users/sample collection and every other user's
voiceprint are unchanged. -/
theorem recompute_voiceprint_frame (st : Storage) (u : String) :
    (recompute_voiceprint st u).users = st.users ∧
    ∀ k, k ≠ u →
      (recompute_voiceprint st u).voiceprints.lookup k =
        st.voiceprints.lookup k := by
  cases hlk : st.users.lookup u with
  | none =>
      rw [recompute_voiceprint_of_none st u hlk]
      exact ⟨rfl, fun _ _ => rfl⟩
  | some samples =>
      rcases eq_or_ne (samples.filterMap id) [] with hfl | hfl
      · rw [recompute_voiceprint_of_nofeat st u samples hlk hfl]
        exact ⟨rfl, fun _ _ => rfl⟩
      · rw [recompute_voiceprint_eval st u samples hlk hfl]
        exact ⟨rfl, fun k hk => lookup_setKey_ne st.voiceprints u k _ hk⟩

end VoiceVault
